import Mathlib

/-! Verification of the market-agents indicator engine
(`src/analyzers/technical.py`) and of the Telegram message delivery layer
(`src/notifiers/telegram.py`).

Embedding conventions:
* A pandas `Series` of prices/volumes is a `List ℚ`, oldest first; float
  arithmetic is modelled by exact rational arithmetic.
* Python `round(x, d)` (round half to even, on `d` decimal places) is
  `roundTo d x`.
* `s.ewm(alpha=a, min_periods=p, adjust=True).mean().iloc[-1]`, on a series
  with no missing values and at least `p` entries, is the adjusted
  exponentially weighted mean with ratio `r = 1 - a`:
  `(Σ_i r^(n-1-i) * x_i) / (Σ_i r^(n-1-i))`.  `ewm(span=s, ...)` uses
  `a = 2/(s+1)`, i.e. `r = (s-1)/(s+1)`.
* Python `str` is `List Char` (Python indexes/slices by code point, as
  `List Char` does); the network transport of the notifier is modelled by a
  boolean outcome oracle per attempt (an exception is a `false` outcome).
-/

/-- Round half to even on a rational: the integer nearest to `q`, ties going
to the even integer.  This is what Python `round` does on the scaled value. -/
def rhe (q : ℚ) : ℤ :=
  if q - ⌊q⌋ < 1 / 2 then ⌊q⌋
  else if 1 / 2 < q - ⌊q⌋ then ⌊q⌋ + 1
  else if ⌊q⌋ % 2 = 0 then ⌊q⌋ else ⌊q⌋ + 1

/-- Python `round(q, d)`: round to `d` decimal places, half to even. -/
def roundTo (d : ℕ) (q : ℚ) : ℚ := (rhe (q * 10 ^ d) : ℚ) / 10 ^ d

/-- One step of the adjusted exponentially weighted mean: the running pair is
(weighted numerator, weight denominator). -/
def ewmaStep (r : ℚ) (p : ℚ × ℚ) (x : ℚ) : ℚ × ℚ := (r * p.1 + x, r * p.2 + 1)

/-- Numerator/denominator pair of the adjusted EWM over a whole series. -/
def ewmaND (r : ℚ) (xs : List ℚ) : ℚ × ℚ := xs.foldl (ewmaStep r) (0, 0)

/-- Final value of `xs.ewm(..., adjust=True).mean()` with ratio `r = 1 - α`:
the weighted mean with weight `r^(n-1-i)` on the `i`-th element. -/
def ewma (r : ℚ) (xs : List ℚ) : ℚ := (ewmaND r xs).1 / (ewmaND r xs).2

/-- Ratio `1 - α` for Wilder smoothing `ewm(alpha=1/period)`. -/
def rWilder (period : ℕ) : ℚ := 1 - 1 / (period : ℚ)

/-- Ratio `1 - α` for `ewm(span=p)`, where `α = 2/(p+1)`. -/
def rSpan (p : ℕ) : ℚ := 1 - 2 / ((p : ℚ) + 1)

/-- `closes.diff().dropna()`: successive deltas `x[i+1] - x[i]`. -/
def deltasOf (closes : List ℚ) : List ℚ :=
  List.zipWith (fun a b => a - b) (closes.drop 1) closes

/-- `deltas.where(deltas > 0, 0.0)`. -/
def gainsOf (closes : List ℚ) : List ℚ :=
  (deltasOf closes).map (fun d => if 0 < d then d else 0)

/-- `(-deltas).where(deltas < 0, 0.0)`. -/
def lossesOf (closes : List ℚ) : List ℚ :=
  (deltasOf closes).map (fun d => if d < 0 then -d else 0)

/-- `calculate_rsi` from `src/analyzers/technical.py`.  The `min_periods`
argument of the `ewm` calls only controls whether the final value is missing;
with `len(closes) ≥ period + 1` the deltas series has at least `period`
entries, so the final smoothed value is always present and equals the
adjusted EWM over the whole deltas series. -/
def calculate_rsi (closes : List ℚ) (period : ℕ) : Option ℚ :=
  if closes.length < period + 1 then none
  else
    let avgGain := ewma (rWilder period) (gainsOf closes)
    let avgLoss := ewma (rWilder period) (lossesOf closes)
    if avgLoss = 0 then some 100
    else some (roundTo 1 (100 - 100 / (1 + avgGain / avgLoss)))

/-- `calculate_ema` from `src/analyzers/technical.py`. -/
def calculate_ema (closes : List ℚ) (period : ℕ) : Option ℚ :=
  if closes.length < period then none
  else some (roundTo 4 (ewma (rSpan period) closes))

/-- `calculate_sma` from `src/analyzers/technical.py`: mean of the last
`period` closes, rounded to 4 places. -/
def calculate_sma (closes : List ℚ) (period : ℕ) : Option ℚ :=
  if closes.length < period then none
  else some (roundTo 4 ((closes.drop (closes.length - period)).sum / period))

/-- The full EWM series (one value per prefix), as pandas produces for
`closes.ewm(span=p, min_periods=p).mean()`; entries at positions with fewer
than `min_periods` samples are missing in pandas and are dropped by the
consumer below. -/
def ewmaScan (r : ℚ) (xs : List ℚ) : List ℚ :=
  ((xs.scanl (ewmaStep r) (0, 0)).drop 1).map (fun p => p.1 / p.2)

/-- The final (most recent) value of the MACD line before rounding:
`EMA(closes, fast) - EMA(closes, slow)` at the last position. -/
def macdLinePre (closes : List ℚ) (fast slow : ℕ) : ℚ :=
  ewma (rSpan fast) closes - ewma (rSpan slow) closes

/-- The MACD-line series fed to the signal EWM.  For `fast ≤ slow` the first
`slow - 1` entries of `ema_fast - ema_slow` are missing in pandas
(`min_periods`), and with `ignore_na=False` (the default) leading missing
entries contribute nothing to the weighted mean, so the signal line equals
the adjusted EWM of the tail starting at position `slow - 1`. -/
def macdSeries (closes : List ℚ) (fast slow : ℕ) : List ℚ :=
  (List.zipWith (fun a b => a - b)
    (ewmaScan (rSpan fast) closes) (ewmaScan (rSpan slow) closes)).drop (slow - 1)

/-- `calculate_macd` from `src/analyzers/technical.py` (faithful for
`1 ≤ fast ≤ slow`, `1 ≤ signal`, the shape of every call in the repo). -/
def calculate_macd (closes : List ℚ) (fast slow signal : ℕ) :
    Option ℚ × Option ℚ × Option ℚ :=
  if closes.length < slow + signal then (none, none, none)
  else
    let line := macdLinePre closes fast slow
    let sigv := ewma (rSpan signal) (macdSeries closes fast slow)
    (some (roundTo 4 line), some (roundTo 4 sigv), some (roundTo 4 (line - sigv)))

/-- `volumes.iloc[:-1].rolling(window=20).mean().iloc[-1]`: the mean of the
20 values immediately preceding the most recent one. -/
def spikeWindowAvg (volumes : List ℚ) : ℚ :=
  let pre := volumes.dropLast
  (pre.drop (pre.length - 20)).sum / 20

/-- `detect_volume_spike` from `src/analyzers/technical.py`.  With
`len(volumes) ≥ 21` the rolling mean is present (never NA), so the
`pd.isna` disjunct of the source guard is vacuous in this model. -/
def detect_volume_spike (volumes : List ℚ) (threshold : ℚ) : Bool :=
  if volumes.length < 21 then false
  else if spikeWindowAvg volumes = 0 then false
  else if spikeWindowAvg volumes * threshold < volumes.getLast?.getD 0 then true
  else false

/-- RSI criterion of `get_signal_summary`: (bullish, bearish) contribution. -/
def voteRsi (rsi : Option ℚ) : ℕ × ℕ :=
  match rsi with
  | none => (0, 0)
  | some r => if r < 30 then (1, 0) else if 70 < r then (0, 1) else (0, 0)

/-- MACD-histogram criterion of `get_signal_summary`. -/
def voteMacdHist (histogram : Option ℚ) : ℕ × ℕ :=
  match histogram with
  | none => (0, 0)
  | some v => if 0 < v then (1, 0) else if v < 0 then (0, 1) else (0, 0)

/-- Price-versus-short-SMA criterion of `get_signal_summary`; skipped unless
both inputs are present. -/
def votePriceSma (price smaShort : Option ℚ) : ℕ × ℕ :=
  match price, smaShort with
  | some p, some s => if s < p then (1, 0) else (0, 1)
  | _, _ => (0, 0)

/-- SMA-cross criterion of `get_signal_summary`; skipped unless both inputs
are present. -/
def voteSmaCross (smaShort smaLong : Option ℚ) : ℕ × ℕ :=
  match smaShort, smaLong with
  | some s, some l => if l < s then (1, 0) else (0, 1)
  | _, _ => (0, 0)

/-- Total bullish votes accumulated by `get_signal_summary`. -/
def bullishVotes (rsi histogram price smaShort smaLong : Option ℚ) : ℕ :=
  (voteRsi rsi).1 + (voteMacdHist histogram).1 +
    (votePriceSma price smaShort).1 + (voteSmaCross smaShort smaLong).1

/-- Total bearish votes accumulated by `get_signal_summary`. -/
def bearishVotes (rsi histogram price smaShort smaLong : Option ℚ) : ℕ :=
  (voteRsi rsi).2 + (voteMacdHist histogram).2 +
    (votePriceSma price smaShort).2 + (voteSmaCross smaShort smaLong).2

/-- `get_signal_summary` from `src/analyzers/technical.py`. -/
def get_signal_summary (rsi histogram price smaShort smaLong : Option ℚ) : String :=
  let bullish := bullishVotes rsi histogram price smaShort smaLong
  let bearish := bearishVotes rsi histogram price smaShort smaLong
  if bearish < bullish then "Bullish"
  else if bullish < bearish then "Bearish"
  else "Neutral"

/-! Weighted-sum normal form of the adjusted EWM, used in proofs. -/

/-- Weighted numerator `Σ_i r^(n-1-i) * x_i` of the adjusted EWM. -/
def wsum (r : ℚ) : List ℚ → ℚ
  | [] => 0
  | x :: t => x * r ^ t.length + wsum r t

/-- Weight denominator `Σ_{i<n} r^i` of the adjusted EWM. -/
def dsum (r : ℚ) : ℕ → ℚ
  | 0 => 0
  | n + 1 => r ^ n + dsum r n

theorem foldl_ewmaStep_eq (r : ℚ) (xs : List ℚ) :
    ∀ N D : ℚ, xs.foldl (ewmaStep r) (N, D) =
      (N * r ^ xs.length + wsum r xs, D * r ^ xs.length + dsum r xs.length) := by
  induction xs with
  | nil => intro N D; simp [wsum, dsum]
  | cons x t ih =>
      intro N D
      simp only [List.foldl_cons, ewmaStep, List.length_cons]
      rw [ih]
      simp only [Prod.mk.injEq]
      refine ⟨?_, ?_⟩ <;> · simp only [wsum, dsum, pow_succ] ; ring

theorem ewmaND_eq (r : ℚ) (xs : List ℚ) :
    ewmaND r xs = (wsum r xs, dsum r xs.length) := by
  unfold ewmaND
  rw [foldl_ewmaStep_eq]
  simp

theorem ewma_eq (r : ℚ) (xs : List ℚ) :
    ewma r xs = wsum r xs / dsum r xs.length := by
  unfold ewma
  rw [ewmaND_eq]

theorem dsum_one_le (r : ℚ) (hr : 0 ≤ r) : ∀ n : ℕ, 1 ≤ n → 1 ≤ dsum r n := by
  intro n
  induction n with
  | zero => omega
  | succ m ih =>
      intro _
      by_cases hm : 1 ≤ m
      · have := ih hm
        have : (0:ℚ) ≤ r ^ m := pow_nonneg hr m
        unfold dsum
        linarith [ih hm]
      · have hm0 : m = 0 := by omega
        subst hm0
        simp [dsum]

theorem dsum_pos (r : ℚ) (hr : 0 ≤ r) {n : ℕ} (hn : 1 ≤ n) : 0 < dsum r n := by
  have := dsum_one_le r hr n hn
  linarith

theorem wsum_nonneg (r : ℚ) (hr : 0 ≤ r) :
    ∀ xs : List ℚ, (∀ x ∈ xs, 0 ≤ x) → 0 ≤ wsum r xs := by
  intro xs
  induction xs with
  | nil => intro _; simp [wsum]
  | cons x t ih =>
      intro h
      have hx : 0 ≤ x := h x (by simp)
      have ht : 0 ≤ wsum r t := ih (fun y hy => h y (by simp [hy]))
      have : (0:ℚ) ≤ x * r ^ t.length := mul_nonneg hx (pow_nonneg hr _)
      unfold wsum
      linarith

theorem wsum_eq_zero (r : ℚ) :
    ∀ xs : List ℚ, (∀ x ∈ xs, x = 0) → wsum r xs = 0 := by
  intro xs
  induction xs with
  | nil => intro _; simp [wsum]
  | cons x t ih =>
      intro h
      have hx : x = 0 := h x (by simp)
      have ht : wsum r t = 0 := ih (fun y hy => h y (by simp [hy]))
      simp [wsum, hx, ht]

theorem wsum_pos (r : ℚ) (hr : 0 ≤ r) :
    ∀ xs : List ℚ, xs ≠ [] → (∀ x ∈ xs, 0 < x) → 0 < wsum r xs := by
  intro xs
  induction xs with
  | nil => intro h; exact absurd rfl h
  | cons x t ih =>
      intro _ h
      have hx : 0 < x := h x (by simp)
      cases t with
      | nil => simpa [wsum] using hx
      | cons y u =>
          have ht : 0 < wsum r (y :: u) := ih (by simp) (fun z hz => h z (by simp [hz]))
          have hw : (0:ℚ) ≤ x * r ^ (y :: u).length := mul_nonneg hx.le (pow_nonneg hr _)
          rw [wsum]
          linarith

theorem ewma_eq_zero_of_all_zero (r : ℚ) (xs : List ℚ)
    (h : ∀ x ∈ xs, x = 0) : ewma r xs = 0 := by
  rw [ewma_eq, wsum_eq_zero r xs h, zero_div]

/-! Facts about round-half-to-even. -/

theorem rhe_eq_floor_or_succ (q : ℚ) : rhe q = ⌊q⌋ ∨ rhe q = ⌊q⌋ + 1 := by
  unfold rhe
  split_ifs <;> simp

theorem rhe_nonneg (q : ℚ) (h : 0 ≤ q) : 0 ≤ rhe q := by
  have hf : (0:ℤ) ≤ ⌊q⌋ := Int.floor_nonneg.2 h
  rcases rhe_eq_floor_or_succ q with h1 | h1 <;> omega

theorem rhe_le_int (q : ℚ) (m : ℤ) (h : q ≤ m) : rhe q ≤ m := by
  have hf : ⌊q⌋ ≤ m := by
    have := Int.floor_le_floor h
    simpa using this
  unfold rhe
  split_ifs with h1 h2 h3
  · exact hf
  · -- here `1/2 < q - ⌊q⌋`, so `⌊q⌋ < m`
    have hq : (⌊q⌋ : ℚ) + 1 / 2 < q := by linarith
    have : (⌊q⌋ : ℚ) < m := by linarith
    have : ⌊q⌋ < m := by exact_mod_cast this
    omega
  · exact hf
  · -- tie case with odd floor: `q - ⌊q⌋ = 1/2`, so `⌊q⌋ < m`
    have hq : q - ⌊q⌋ = 1 / 2 := by linarith
    have : (⌊q⌋ : ℚ) < m := by linarith
    have : ⌊q⌋ < m := by exact_mod_cast this
    omega

theorem roundTo_nonneg (d : ℕ) (q : ℚ) (h : 0 ≤ q) : 0 ≤ roundTo d q := by
  unfold roundTo
  have h1 : 0 ≤ q * 10 ^ d := mul_nonneg h (by positivity)
  have h2 : (0:ℚ) ≤ (rhe (q * 10 ^ d) : ℚ) := by exact_mod_cast rhe_nonneg _ h1
  positivity

theorem roundTo_le_int (d : ℕ) (q : ℚ) (m : ℤ) (h : q ≤ m) : roundTo d q ≤ m := by
  unfold roundTo
  have h1 : q * 10 ^ d ≤ (m * 10 ^ d : ℤ) := by
    push_cast
    have : (0:ℚ) ≤ 10 ^ d := by positivity
    nlinarith
  have h2 : rhe (q * 10 ^ d) ≤ m * 10 ^ d := rhe_le_int _ _ h1
  rw [div_le_iff (by positivity : (0:ℚ) < 10 ^ d)]
  exact_mod_cast h2

theorem dsum_nonneg (r : ℚ) (hr : 0 ≤ r) : ∀ n : ℕ, 0 ≤ dsum r n := by
  intro n
  induction n with
  | zero => simp [dsum]
  | succ m ih =>
      have : (0:ℚ) ≤ r ^ m := pow_nonneg hr m
      rw [dsum]
      linarith

theorem rWilder_nonneg {period : ℕ} (hp : 0 < period) : 0 ≤ rWilder period := by
  unfold rWilder
  have h1 : (1:ℚ) ≤ (period : ℚ) := by exact_mod_cast hp
  have : 1 / (period : ℚ) ≤ 1 := by
    rw [div_le_one (by linarith)]
    linarith
  linarith

theorem deltasOf_length (closes : List ℚ) :
    (deltasOf closes).length = closes.length - 1 := by
  simp [deltasOf]

theorem gainsOf_nonneg (closes : List ℚ) : ∀ x ∈ gainsOf closes, 0 ≤ x := by
  intro x hx
  rcases List.mem_map.1 hx with ⟨d, _, rfl⟩
  by_cases hd : 0 < d
  · simp [hd]; linarith
  · simp [hd]

theorem lossesOf_nonneg (closes : List ℚ) : ∀ x ∈ lossesOf closes, 0 ≤ x := by
  intro x hx
  rcases List.mem_map.1 hx with ⟨d, _, rfl⟩
  by_cases hd : d < 0
  · simp [hd]; linarith
  · simp [hd]

/-- Helper: `calculate_rsi` is undefined on series shorter than `period+1`. -/
theorem rsi_short_eq_none (closes : List ℚ) (period : ℕ)
    (h : closes.length < period + 1) : calculate_rsi closes period = none := by
  unfold calculate_rsi
  rw [if_pos h]

/-- Helper: on a long-enough series with no negative delta the smoothed
average loss is zero and `calculate_rsi` returns exactly 100. -/
theorem rsi_nonneg_deltas_eq_100 (closes : List ℚ) (period : ℕ)
    (hlen : period + 1 ≤ closes.length) (hd : ∀ d ∈ deltasOf closes, 0 ≤ d) :
    calculate_rsi closes period = some 100 := by
  have hzero : ewma (rWilder period) (lossesOf closes) = 0 := by
    apply ewma_eq_zero_of_all_zero
    intro x hx
    rcases List.mem_map.1 hx with ⟨d, hdm, rfl⟩
    have := hd d hdm
    simp only [if_neg (not_lt.2 this)]
  unfold calculate_rsi
  rw [if_neg (by omega)]
  simp [hzero]

/-- Claim C1: `calculate_rsi` is undefined on series shorter than
`period + 1`; on series of sufficient length whose successive deltas are all
non-negative the smoothed average loss is zero and the result is exactly
`100.0`.  (`0 < period` reflects the function's domain: the Python code
divides by `period` to form the smoothing factor, so a zero period raises.) -/
theorem claim_C1 (closes : List ℚ) (period : ℕ) (hp : 0 < period) :
    (closes.length < period + 1 → calculate_rsi closes period = none) ∧
    (period + 1 ≤ closes.length → (∀ d ∈ deltasOf closes, 0 ≤ d) →
      calculate_rsi closes period = some 100) :=
  ⟨rsi_short_eq_none closes period, rsi_nonneg_deltas_eq_100 closes period⟩

/-- Witness for C1 at a concrete input: length 3 < 15 is undefined, and
a rising 16-long series gives exactly 100. -/
theorem claim_C1_witness :
    calculate_rsi [100, 101, 102] 14 = none ∧
    calculate_rsi [0, 1, 2, 3, 4, 5, 6, 7, 8, 9, 10, 11, 12, 13, 14, 15] 14 =
      some 100 := by
  have h := claim_C1 [100, 101, 102] 14 (by norm_num)
  have h2 := claim_C1 [0, 1, 2, 3, 4, 5, 6, 7, 8, 9, 10, 11, 12, 13, 14, 15] 14
    (by norm_num)
  exact ⟨h.1 (by simp), h2.2 (by simp) (by norm_num [deltasOf])⟩

/-- Claim C2: whenever `calculate_rsi` returns a value, that value lies in
`[0, 100]`. -/
theorem claim_C2 (closes : List ℚ) (period : ℕ) (q : ℚ) (hp : 0 < period)
    (h : calculate_rsi closes period = some q) : 0 ≤ q ∧ q ≤ 100 := by
  unfold calculate_rsi at h
  by_cases hlen : closes.length < period + 1
  · rw [if_pos hlen] at h
    exact absurd h (by simp)
  · rw [if_neg hlen] at h
    simp only [] at h
    by_cases hz : ewma (rWilder period) (lossesOf closes) = 0
    · rw [if_pos hz] at h
      obtain rfl : (100 : ℚ) = q := Option.some.inj h
      exact ⟨by norm_num, by norm_num⟩
    · rw [if_neg hz] at h
      have hq : roundTo 1 (100 - 100 / (1 + ewma (rWilder period) (gainsOf closes) /
          ewma (rWilder period) (lossesOf closes))) = q := Option.some.inj h
      have hr : 0 ≤ rWilder period := rWilder_nonneg hp
      have hag : 0 ≤ ewma (rWilder period) (gainsOf closes) := by
        rw [ewma_eq]
        exact div_nonneg (wsum_nonneg _ hr _ (gainsOf_nonneg closes))
          (dsum_nonneg _ hr _)
      have hal0 : 0 ≤ ewma (rWilder period) (lossesOf closes) := by
        rw [ewma_eq]
        exact div_nonneg (wsum_nonneg _ hr _ (lossesOf_nonneg closes))
          (dsum_nonneg _ hr _)
      have hal : 0 < ewma (rWilder period) (lossesOf closes) :=
        lt_of_le_of_ne hal0 (Ne.symm hz)
      set rs := ewma (rWilder period) (gainsOf closes) /
        ewma (rWilder period) (lossesOf closes) with hrs
      have hrs0 : 0 ≤ rs := div_nonneg hag hal.le
      have hd1 : 0 < 100 / (1 + rs) := div_pos (by norm_num) (by linarith)
      have hd2 : 100 / (1 + rs) ≤ 100 := div_le_self (by norm_num) (by linarith)
      rw [← hq]
      constructor
      · exact roundTo_nonneg _ _ (by linarith)
      · have := roundTo_le_int 1 (100 - 100 / (1 + rs)) 100 (by push_cast; linarith)
        simpa using this

/-- Witness for C2: the all-gain series returns 100, which is in bounds. -/
theorem claim_C2_witness : 0 ≤ (100:ℚ) ∧ (100:ℚ) ≤ 100 :=
  claim_C2 [0, 1, 2, 3, 4, 5, 6, 7, 8, 9, 10, 11, 12, 13, 14, 15] 14 100
    (by norm_num)
    (rsi_nonneg_deltas_eq_100 _ _ (by simp) (by norm_num [deltasOf]))

/-- Claim C3: `calculate_macd` returns all three fields `None` exactly when
`len(closes) < slow + signal`, and all three fields are defined otherwise.
The hypotheses `1 ≤ fast ≤ slow`, `1 ≤ signal` delimit the function's
domain (pandas rejects a span below 1, and MACD uses a fast span below the
slow span; every call in the repo uses `12, 26, 9`). -/
theorem claim_C3 (closes : List ℚ) (fast slow signal : ℕ)
    (hf : 1 ≤ fast) (hfs : fast ≤ slow) (hsig : 1 ≤ signal) :
    (calculate_macd closes fast slow signal = (none, none, none) ↔
      closes.length < slow + signal) ∧
    (slow + signal ≤ closes.length →
      ∃ a b c, calculate_macd closes fast slow signal = (some a, some b, some c)) := by
  unfold calculate_macd
  by_cases h : closes.length < slow + signal
  · rw [if_pos h]
    refine ⟨by simp [h], fun hc => absurd hc (by omega)⟩
  · rw [if_neg h]
    constructor
    · constructor
      · intro hcontra
        have := congrArg (fun t => t.1) hcontra
        simp at this
      · intro hlt
        exact absurd hlt h
    · intro _
      exact ⟨_, _, _, rfl⟩

/-- Witness for C3 at the default parameters: a 10-long series is all-None,
a 35-long series is fully defined. -/
theorem claim_C3_witness :
    (calculate_macd (List.replicate 10 (100:ℚ)) 12 26 9 = (none, none, none) ↔
      (List.replicate 10 (100:ℚ)).length < 26 + 9) ∧
    (∃ a b c, calculate_macd (List.replicate 35 (100:ℚ)) 12 26 9 =
      (some a, some b, some c)) := by
  have h1 := claim_C3 (List.replicate 10 (100:ℚ)) 12 26 9 (by norm_num)
    (by norm_num) (by norm_num)
  have h2 := claim_C3 (List.replicate 35 (100:ℚ)) 12 26 9 (by norm_num)
    (by norm_num) (by norm_num)
  exact ⟨h1.1, h2.2 (by simp)⟩

theorem spikeWindowAvg_replicate_concat (v w : ℚ) :
    spikeWindowAvg (List.replicate 25 v ++ [w]) = v := by
  unfold spikeWindowAvg
  simp only [List.dropLast_concat, List.length_replicate]
  rw [List.drop_replicate]
  norm_num [List.sum_replicate, nsmul_eq_mul]

theorem spikeWindowAvg_replicate_25 (v : ℚ) :
    spikeWindowAvg (List.replicate 25 v) = v := by
  unfold spikeWindowAvg
  rw [List.replicate_succ' 24, List.dropLast_concat]
  simp only [List.length_replicate]
  rw [List.drop_replicate]
  norm_num [List.sum_replicate, nsmul_eq_mul]

/-- Claim C4: the volume-spike detector is false on series shorter than 21
and on a zero 20-day average; otherwise it fires exactly when the latest
volume strictly exceeds the average times the threshold.  The two concrete
scenarios from the spec hold for every positive (resp. non-negative) base
volume `v`. -/
theorem claim_C4 (volumes : List ℚ) (threshold v : ℚ) :
    (volumes.length < 21 → detect_volume_spike volumes threshold = false) ∧
    (21 ≤ volumes.length → spikeWindowAvg volumes = 0 →
      detect_volume_spike volumes threshold = false) ∧
    (21 ≤ volumes.length → spikeWindowAvg volumes ≠ 0 →
      (detect_volume_spike volumes threshold = true ↔
        spikeWindowAvg volumes * threshold < volumes.getLast?.getD 0)) ∧
    (0 < v → detect_volume_spike (List.replicate 25 v ++ [5 * v]) 2 = true) ∧
    (0 ≤ v → detect_volume_spike (List.replicate 25 v) 2 = false) := by
  refine ⟨?_, ?_, ?_, ?_, ?_⟩
  · intro h
    unfold detect_volume_spike
    rw [if_pos h]
  · intro hlen hz
    unfold detect_volume_spike
    rw [if_neg (by omega), if_pos hz]
  · intro hlen hz
    unfold detect_volume_spike
    rw [if_neg (by omega), if_neg hz]
    constructor
    · intro h
      by_contra hc
      rw [if_neg hc] at h
      exact Bool.false_ne_true h
    · intro h
      rw [if_pos h]
  · intro hv
    unfold detect_volume_spike
    rw [if_neg (by simp)]
    rw [spikeWindowAvg_replicate_concat]
    rw [if_neg hv.ne']
    have hlast : ((List.replicate 25 v ++ [5 * v]).getLast?).getD 0 = 5 * v := by
      simp
    rw [hlast]
    rw [if_pos (by linarith)]
  · intro hv
    unfold detect_volume_spike
    rw [if_neg (by simp)]
    rw [spikeWindowAvg_replicate_25]
    by_cases hv0 : v = 0
    · rw [if_pos hv0]
    · rw [if_neg hv0]
      rw [if_neg]
      rw [List.replicate_succ' 24]
      simp only [List.getLast?_concat, Option.getD_some]
      intro hc
      nlinarith

/-- Witness for C4: base volume 1 with a 5x point fires, without it does
not, and a 5-long series never fires. -/
theorem claim_C4_witness :
    detect_volume_spike (List.replicate 25 (1:ℚ) ++ [5 * 1]) 2 = true ∧
    detect_volume_spike (List.replicate 25 (1:ℚ)) 2 = false ∧
    detect_volume_spike (List.replicate 5 (1:ℚ)) 2 = false :=
  ⟨(claim_C4 [] 2 1).2.2.2.1 (by norm_num),
   (claim_C4 [] 2 1).2.2.2.2 (by norm_num),
   (claim_C4 (List.replicate 5 (1:ℚ)) 2 1).1 (by simp)⟩

/-- Claim C5: each criterion of `get_signal_summary` contributes at most one
vote, is skipped when a required input is missing, and the decision compares
the bullish and bearish totals, with every tie (including 0-0) neutral; the
two all-or-nothing examples from the spec follow. -/
theorem claim_C5 (rsi histogram price smaShort smaLong : Option ℚ) :
    ((voteRsi rsi).1 + (voteRsi rsi).2 ≤ 1) ∧
    ((voteMacdHist histogram).1 + (voteMacdHist histogram).2 ≤ 1) ∧
    ((votePriceSma price smaShort).1 + (votePriceSma price smaShort).2 ≤ 1) ∧
    ((voteSmaCross smaShort smaLong).1 + (voteSmaCross smaShort smaLong).2 ≤ 1) ∧
    (voteRsi none = (0, 0) ∧ voteMacdHist none = (0, 0) ∧
      votePriceSma price none = (0, 0) ∧ votePriceSma none smaShort = (0, 0) ∧
      voteSmaCross smaShort none = (0, 0) ∧ voteSmaCross none smaLong = (0, 0)) ∧
    (get_signal_summary rsi histogram price smaShort smaLong = "Bullish" ↔
      bearishVotes rsi histogram price smaShort smaLong <
        bullishVotes rsi histogram price smaShort smaLong) ∧
    (get_signal_summary rsi histogram price smaShort smaLong = "Bearish" ↔
      bullishVotes rsi histogram price smaShort smaLong <
        bearishVotes rsi histogram price smaShort smaLong) ∧
    (get_signal_summary rsi histogram price smaShort smaLong = "Neutral" ↔
      bullishVotes rsi histogram price smaShort smaLong =
        bearishVotes rsi histogram price smaShort smaLong) ∧
    get_signal_summary none none none none none = "Neutral" ∧
    get_signal_summary (some 25) (some (-(1/2))) none none none = "Neutral" := by
  refine ⟨?_, ?_, ?_, ?_, ?_, ?_, ?_, ?_, ?_, ?_⟩
  · rcases rsi with _ | r
    · simp [voteRsi]
    · simp only [voteRsi]
      split_ifs <;> simp
  · rcases histogram with _ | x
    · simp [voteMacdHist]
    · simp only [voteMacdHist]
      split_ifs <;> simp
  · rcases price with _ | p <;> rcases smaShort with _ | s <;>
      simp only [votePriceSma] <;> first | simp | (split_ifs <;> simp)
  · rcases smaShort with _ | s <;> rcases smaLong with _ | l <;>
      simp only [voteSmaCross] <;> first | simp | (split_ifs <;> simp)
  · refine ⟨rfl, rfl, ?_, rfl, ?_, rfl⟩
    · rcases price with _ | p <;> rfl
    · rcases smaShort with _ | s <;> rfl
  · unfold get_signal_summary
    dsimp only
    split_ifs with h1 h2
    · simpa using h1
    · constructor
      · intro hc
        exact absurd hc (by decide)
      · intro hc
        exact absurd hc h1
    · constructor
      · intro hc
        exact absurd hc (by decide)
      · intro hc
        exact absurd hc h1
  · unfold get_signal_summary
    dsimp only
    split_ifs with h1 h2
    · constructor
      · intro hc
        exact absurd hc (by decide)
      · intro hc
        omega
    · simpa using h2
    · constructor
      · intro hc
        exact absurd hc (by decide)
      · intro hc
        exact absurd hc h2
  · unfold get_signal_summary
    dsimp only
    split_ifs with h1 h2
    · constructor
      · intro hc
        exact absurd hc (by decide)
      · intro hc
        omega
    · constructor
      · intro hc
        exact absurd hc (by decide)
      · intro hc
        omega
    · constructor
      · intro _
        omega
      · intro _
        rfl
  · rfl
  · norm_num [get_signal_summary, bullishVotes, bearishVotes, voteRsi,
      voteMacdHist, votePriceSma, voteSmaCross]

/-- Claim C7: every indicator function returns an explicit undefined value
(a `none`, an all-`none` record, or `false`) on a series shorter than its
required window; the embedding itself is total, so no input raises. -/
theorem claim_C7 (closes volumes : List ℚ) (period fast slow signal : ℕ)
    (threshold : ℚ) :
    (closes.length < period + 1 → calculate_rsi closes period = none) ∧
    (closes.length < period → calculate_ema closes period = none) ∧
    (closes.length < period → calculate_sma closes period = none) ∧
    (closes.length < slow + signal →
      calculate_macd closes fast slow signal = (none, none, none)) ∧
    (volumes.length < 21 → detect_volume_spike volumes threshold = false) := by
  refine ⟨?_, ?_, ?_, ?_, ?_⟩
  · intro h
    unfold calculate_rsi
    rw [if_pos h]
  · intro h
    unfold calculate_ema
    rw [if_pos h]
  · intro h
    unfold calculate_sma
    rw [if_pos h]
  · intro h
    unfold calculate_macd
    rw [if_pos h]
  · intro h
    unfold detect_volume_spike
    rw [if_pos h]

/-- Witness for C7 on one-element series. -/
theorem claim_C7_witness :
    calculate_rsi [1] 14 = none ∧ calculate_ema [1] 5 = none ∧
    calculate_sma [1] 5 = none ∧
    calculate_macd [1] 12 26 9 = (none, none, none) ∧
    detect_volume_spike [1] 2 = false := by
  have h := claim_C7 [1] [1] 14 12 26 9 2
  exact ⟨h.1 (by simp), h.2.1 (by simp), h.2.2.1 (by simp),
    h.2.2.2.1 (by simp), h.2.2.2.2 (by simp)⟩

/-! Comparison of adjusted EWMs with different ratios on a strictly
increasing series.  The invariant threads auxiliary weights `a`, `b` so that
appending an element at the front preserves its shape. -/

theorem ewmaCross_le (r s x : ℚ) (hr : 0 ≤ r) (hrs : r < s) :
    ∀ (t : List ℚ) (a b : ℚ), 0 < a → 0 ≤ b → b ≤ a → (∀ y ∈ t, x ≤ y) →
      x * (s ^ t.length * a * dsum r t.length - r ^ t.length * b * dsum s t.length) ≤
        s ^ t.length * a * wsum r t - r ^ t.length * b * wsum s t := by
  intro t
  induction t with
  | nil => intro a b _ _ _ _; simp [wsum, dsum]
  | cons y u ih =>
      intro a b ha hb hba hxy
      have hxy' : x ≤ y := hxy y (by simp)
      have hS : (0:ℚ) < s := lt_of_le_of_lt hr hrs
      have key := ih (s * a) (r * b) (by positivity) (mul_nonneg hr hb)
        (by nlinarith) (fun z hz => hxy z (by simp [hz]))
      have hsarb : r * b ≤ s * a := by nlinarith
      have hrm : (0:ℚ) ≤ r ^ u.length := pow_nonneg hr u.length
      have hsm : (0:ℚ) ≤ s ^ u.length := pow_nonneg hS.le u.length
      have hpow : (0:ℚ) ≤ r ^ u.length * s ^ u.length * (s * a - r * b) := by
        have h1 : (0:ℚ) ≤ s * a - r * b := by linarith
        positivity
      have hco : x * (r ^ u.length * s ^ u.length * (s * a - r * b)) ≤
          y * (r ^ u.length * s ^ u.length * (s * a - r * b)) :=
        mul_le_mul_of_nonneg_right hxy' hpow
      simp only [List.length_cons, wsum, dsum, pow_succ]
      nlinarith [key, hco]

theorem ewmaCross_lt (r s x : ℚ) (hr : 0 ≤ r) (hrs : r < s) :
    ∀ (t : List ℚ) (a b : ℚ), t ≠ [] → 0 < a → 0 ≤ b → b ≤ a →
      (∀ y ∈ t, x < y) →
      x * (s ^ t.length * a * dsum r t.length - r ^ t.length * b * dsum s t.length) <
        s ^ t.length * a * wsum r t - r ^ t.length * b * wsum s t := by
  intro t
  induction t with
  | nil => intro a b h; exact absurd rfl h
  | cons y u ih =>
      intro a b _ ha hb hba hxy
      have hxy' : x < y := hxy y (by simp)
      have hS : (0:ℚ) < s := lt_of_le_of_lt hr hrs
      cases u with
      | nil =>
          have hpos : 0 < s * a - r * b := by nlinarith
          simp only [List.length_cons, List.length_nil, wsum, dsum, zero_add,
            pow_one, pow_zero, mul_one, add_zero]
          nlinarith [mul_pos (sub_pos.2 hxy') hpos]
      | cons z v =>
          have key := ih (s * a) (r * b) (by simp) (by positivity)
            (mul_nonneg hr hb) (by nlinarith)
            (fun w hw => hxy w (by simp [hw]))
          have hsarb : r * b ≤ s * a := by nlinarith
          have hrm : (0:ℚ) ≤ r ^ (z :: v).length := pow_nonneg hr _
          have hsm : (0:ℚ) ≤ s ^ (z :: v).length := pow_nonneg hS.le _
          have hpow : (0:ℚ) ≤ r ^ (z :: v).length * s ^ (z :: v).length *
              (s * a - r * b) := by
            have h1 : (0:ℚ) ≤ s * a - r * b := by linarith
            positivity
          have hco : x * (r ^ (z :: v).length * s ^ (z :: v).length *
                (s * a - r * b)) ≤
              y * (r ^ (z :: v).length * s ^ (z :: v).length * (s * a - r * b)) :=
            mul_le_mul_of_nonneg_right hxy'.le hpow
          simp only [List.length_cons, wsum, dsum, pow_succ] at key hco ⊢
          nlinarith [key, hco]

theorem wsum_cross_le (r s : ℚ) (hr : 0 ≤ r) (hrs : r < s) :
    ∀ t : List ℚ, List.Pairwise (· < ·) t →
      wsum s t * dsum r t.length ≤ wsum r t * dsum s t.length := by
  intro t
  induction t with
  | nil => intro _; simp [wsum, dsum]
  | cons x u ih =>
      intro hp
      rw [List.pairwise_cons] at hp
      obtain ⟨hx, hu⟩ := hp
      cases u with
      | nil => simp [wsum, dsum]
      | cons z v =>
          have hM := ih hu
          have hA := ewmaCross_le r s x hr hrs (z :: v) 1 1 (by norm_num)
            (by norm_num) (by norm_num) (fun y hy => (hx y hy).le)
          simp only [List.length_cons, wsum, dsum, pow_succ, mul_one, one_mul]
            at hM hA ⊢
          nlinarith [hM, hA]

theorem wsum_cross_lt (r s : ℚ) (hr : 0 ≤ r) (hrs : r < s) :
    ∀ t : List ℚ, 2 ≤ t.length → List.Pairwise (· < ·) t →
      wsum s t * dsum r t.length < wsum r t * dsum s t.length := by
  intro t
  cases t with
  | nil => intro h; simp at h
  | cons x u =>
      intro hlen hp
      rw [List.pairwise_cons] at hp
      obtain ⟨hx, hu⟩ := hp
      cases u with
      | nil => simp at hlen
      | cons z v =>
          have hM := wsum_cross_le r s hr hrs (z :: v) hu
          have hA := ewmaCross_lt r s x hr hrs (z :: v) 1 1 (by simp)
            (by norm_num) (by norm_num) (by norm_num) hx
          simp only [List.length_cons, wsum, dsum, pow_succ, mul_one, one_mul]
            at hM hA ⊢
          nlinarith [hM, hA]

/-- On a strictly increasing series of length at least 2 the adjusted EWM
with the smaller ratio (shorter span, faster) is strictly larger. -/
theorem ewma_lt_of_ratio_lt (r s : ℚ) (xs : List ℚ) (hr : 0 ≤ r) (hrs : r < s)
    (hlen : 2 ≤ xs.length) (hp : List.Pairwise (· < ·) xs) :
    ewma s xs < ewma r xs := by
  rw [ewma_eq, ewma_eq]
  have hS : (0:ℚ) < s := lt_of_le_of_lt hr hrs
  have h1 : 0 < dsum r xs.length := dsum_pos r hr (by omega)
  have h2 : 0 < dsum s xs.length := dsum_pos s hS.le (by omega)
  rw [div_lt_div_iff h2 h1]
  exact wsum_cross_lt r s hr hrs xs hlen hp

theorem rSpan_nonneg {p : ℕ} (hp : 1 ≤ p) : 0 ≤ rSpan p := by
  unfold rSpan
  have h1 : (1:ℚ) ≤ (p:ℚ) := by exact_mod_cast hp
  have h2 : (0:ℚ) < (p:ℚ) + 1 := by linarith
  have h3 : 2 / ((p:ℚ) + 1) ≤ 1 := by
    rw [div_le_one h2]
    linarith
  linarith

theorem rSpan_lt_rSpan {a b : ℕ} (hab : a < b) : rSpan a < rSpan b := by
  unfold rSpan
  have h1 : (0:ℚ) < (a:ℚ) + 1 := by positivity
  have hcast : (a:ℚ) < (b:ℚ) := by exact_mod_cast hab
  have h3 : 2 / ((b:ℚ) + 1) < 2 / ((a:ℚ) + 1) :=
    div_lt_div_of_pos_left (by norm_num) h1 (by linarith)
  linarith

theorem deltasOf_pos : ∀ closes : List ℚ, List.Pairwise (· < ·) closes →
    ∀ d ∈ deltasOf closes, 0 < d
  | [] => by simp [deltasOf]
  | [a] => by simp [deltasOf]
  | a :: b :: u => by
      intro hp d hd
      rw [List.pairwise_cons] at hp
      obtain ⟨hab, hu⟩ := hp
      have hcons : deltasOf (a :: b :: u) = (b - a) :: deltasOf (b :: u) := rfl
      rw [hcons] at hd
      rcases List.mem_cons.1 hd with rfl | hd
      · have := hab b (by simp)
        linarith
      · exact deltasOf_pos (b :: u) hu d hd

theorem deltasOf_neg : ∀ closes : List ℚ, List.Pairwise (· > ·) closes →
    ∀ d ∈ deltasOf closes, d < 0
  | [] => by simp [deltasOf]
  | [a] => by simp [deltasOf]
  | a :: b :: u => by
      intro hp d hd
      rw [List.pairwise_cons] at hp
      obtain ⟨hab, hu⟩ := hp
      have hcons : deltasOf (a :: b :: u) = (b - a) :: deltasOf (b :: u) := rfl
      rw [hcons] at hd
      rcases List.mem_cons.1 hd with rfl | hd
      · have := hab b (by simp)
        linarith
      · exact deltasOf_neg (b :: u) hu d hd

theorem lossesOf_length (closes : List ℚ) :
    (lossesOf closes).length = closes.length - 1 := by
  simp [lossesOf, deltasOf_length]

theorem roundTo_zero (d : ℕ) : roundTo d 0 = 0 := by
  unfold roundTo rhe
  norm_num

/-- Helper: on a strictly decreasing series of sufficient length, RSI is
exactly 0 (zero average gain, positive average loss). -/
theorem rsi_strict_decr_eq_0 (closes : List ℚ) (period : ℕ) (hp : 0 < period)
    (hlen : period + 1 ≤ closes.length)
    (hdec : List.Pairwise (· > ·) closes) :
    calculate_rsi closes period = some 0 := by
  have hr : 0 ≤ rWilder period := rWilder_nonneg hp
  have hdel : ∀ d ∈ deltasOf closes, d < 0 := deltasOf_neg closes hdec
  have hgain : ewma (rWilder period) (gainsOf closes) = 0 := by
    apply ewma_eq_zero_of_all_zero
    intro x hx
    rcases List.mem_map.1 hx with ⟨d, hdm, rfl⟩
    have := hdel d hdm
    rw [if_neg (by linarith)]
  have hlossNe : lossesOf closes ≠ [] := by
    have hl := lossesOf_length closes
    intro hc
    rw [hc] at hl
    simp at hl
    omega
  have hloss : 0 < ewma (rWilder period) (lossesOf closes) := by
    rw [ewma_eq]
    apply div_pos
    · apply wsum_pos _ hr _ hlossNe
      intro x hx
      rcases List.mem_map.1 hx with ⟨d, hdm, rfl⟩
      have := hdel d hdm
      rw [if_pos this]
      linarith
    · apply dsum_pos _ hr
      rw [lossesOf_length]
      omega
  unfold calculate_rsi
  rw [if_neg (by omega)]
  dsimp only
  rw [if_neg hloss.ne']
  rw [hgain]
  norm_num [roundTo_zero]

/-- Claim C6, amended on the MACD conjunct: on a strictly increasing series
the RSI is 100 (> 50) and the unrounded MACD line is strictly positive, but
the returned MACD line is only guaranteed non-negative, because rounding to
4 decimal places maps small positive values to exactly 0; on a strictly
decreasing series the RSI is 0 (< 50). -/
theorem claim_C6 (closes : List ℚ) (period fast slow signal : ℕ)
    (hp : 0 < period) (hf : 1 ≤ fast) (hfs : fast < slow) (hsig : 1 ≤ signal) :
    (List.Pairwise (· < ·) closes → period + 1 ≤ closes.length →
      ∃ q, calculate_rsi closes period = some q ∧ 50 < q) ∧
    (List.Pairwise (· < ·) closes → slow + signal ≤ closes.length →
      0 < macdLinePre closes fast slow ∧
      (calculate_macd closes fast slow signal).1 =
        some (roundTo 4 (macdLinePre closes fast slow)) ∧
      0 ≤ roundTo 4 (macdLinePre closes fast slow)) ∧
    (List.Pairwise (· > ·) closes → period + 1 ≤ closes.length →
      ∃ q, calculate_rsi closes period = some q ∧ q < 50) := by
  refine ⟨?_, ?_, ?_⟩
  · intro hpw hlen
    refine ⟨100, ?_, by norm_num⟩
    apply rsi_nonneg_deltas_eq_100 closes period hlen
    intro d hd
    exact (deltasOf_pos closes hpw d hd).le
  · intro hpw hlen
    have hpre : 0 < macdLinePre closes fast slow := by
      unfold macdLinePre
      have := ewma_lt_of_ratio_lt (rSpan fast) (rSpan slow) closes
        (rSpan_nonneg hf) (rSpan_lt_rSpan hfs) (by omega) hpw
      linarith
    refine ⟨hpre, ?_, roundTo_nonneg _ _ hpre.le⟩
    unfold calculate_macd
    rw [if_neg (by omega)]
  · intro hpw hlen
    exact ⟨0, rsi_strict_decr_eq_0 closes period hp hlen hpw, by norm_num⟩

/-- A strictly increasing integer ramp `0, 1, 2, ...` of rationals. -/
def rampUp (n : ℕ) : List ℚ := (List.range n).map (fun (i : ℕ) => (i : ℚ))

/-- A strictly decreasing ramp `0, -1, -2, ...` of rationals. -/
def rampDown (n : ℕ) : List ℚ := (List.range n).map (fun (i : ℕ) => -(i : ℚ))

theorem rampUp_pairwise (n : ℕ) : List.Pairwise (· < ·) (rampUp n) := by
  unfold rampUp
  rw [List.pairwise_map]
  exact (List.pairwise_lt_range n).imp (fun h => by exact_mod_cast h)

theorem rampDown_pairwise (n : ℕ) : List.Pairwise (· > ·) (rampDown n) := by
  unfold rampDown
  rw [List.pairwise_map]
  apply (List.pairwise_lt_range n).imp
  intro a b h
  have hc : (a:ℚ) < (b:ℚ) := by exact_mod_cast h
  simpa using hc

theorem rampUp_length (n : ℕ) : (rampUp n).length = n := by
  simp [rampUp]

theorem rampDown_length (n : ℕ) : (rampDown n).length = n := by
  simp [rampDown]

/-- Witness for C6: rising/falling integer ramps of length 16 and 35. -/
theorem claim_C6_witness :
    (∃ q, calculate_rsi (rampUp 16) 14 = some q ∧ 50 < q) ∧
    (0 < macdLinePre (rampUp 35) 12 26 ∧
      ∃ q, (calculate_macd (rampUp 35) 12 26 9).1 = some q ∧ 0 ≤ q) ∧
    (∃ q, calculate_rsi (rampDown 16) 14 = some q ∧ q < 50) := by
  have h1 := claim_C6 (rampUp 16) 14 12 26 9
    (by norm_num) (by norm_num) (by norm_num) (by norm_num)
  have h2 := claim_C6 (rampUp 35) 14 12 26 9
    (by norm_num) (by norm_num) (by norm_num) (by norm_num)
  have h3 := claim_C6 (rampDown 16) 14 12 26 9
    (by norm_num) (by norm_num) (by norm_num) (by norm_num)
  refine ⟨h1.1 (rampUp_pairwise 16) (by simp [rampUp_length]), ?_,
    h3.2.2 (rampDown_pairwise 16) (by simp [rampDown_length])⟩
  obtain ⟨hpre, heq, hge⟩ := h2.2.1 (rampUp_pairwise 35) (by simp [rampUp_length])
  exact ⟨hpre, _, heq, hge⟩

theorem wsum_le_mul_dsum (r b : ℚ) (hr : 0 ≤ r) :
    ∀ xs : List ℚ, (∀ x ∈ xs, x ≤ b) → wsum r xs ≤ b * dsum r xs.length := by
  intro xs
  induction xs with
  | nil => intro _; simp [wsum, dsum]
  | cons x t ih =>
      intro h
      have hx : x ≤ b := h x (by simp)
      have ht := ih (fun y hy => h y (by simp [hy]))
      have hpow : (0:ℚ) ≤ r ^ t.length := pow_nonneg hr _
      have h1 : x * r ^ t.length ≤ b * r ^ t.length :=
        mul_le_mul_of_nonneg_right hx hpow
      simp only [wsum, dsum, List.length_cons]
      nlinarith

theorem ewma_le_of_all_le (r b : ℚ) (xs : List ℚ) (hr : 0 ≤ r)
    (hne : xs ≠ []) (h : ∀ x ∈ xs, x ≤ b) : ewma r xs ≤ b := by
  rw [ewma_eq]
  have hlen : 1 ≤ xs.length := by
    cases xs with
    | nil => exact absurd rfl hne
    | cons y t => simp
  have hd : 0 < dsum r xs.length := dsum_pos r hr hlen
  rw [div_le_iff hd]
  have := wsum_le_mul_dsum r b hr xs h
  linarith

theorem ewma_nonneg_of_all_nonneg (r : ℚ) (xs : List ℚ) (hr : 0 ≤ r)
    (h : ∀ x ∈ xs, 0 ≤ x) : 0 ≤ ewma r xs := by
  rw [ewma_eq]
  exact div_nonneg (wsum_nonneg r hr xs h) (dsum_nonneg r hr _)

theorem roundTo_eq_zero_of_small (d : ℕ) (q : ℚ) (h0 : 0 ≤ q)
    (hs : q * 10 ^ d < 1 / 2) : roundTo d q = 0 := by
  have hy : 0 ≤ q * 10 ^ d := mul_nonneg h0 (by positivity)
  have hfl : ⌊q * 10 ^ d⌋ = 0 := by
    rw [Int.floor_eq_zero_iff]
    constructor
    · exact hy
    · simpa using lt_trans hs (by norm_num)
  unfold roundTo rhe
  rw [hfl]
  rw [if_pos (by push_cast; linarith)]
  norm_num

/-- The concrete strictly increasing series refuting the MACD conjunct of
C6: 35 closes rising by one trillionth per step. -/
def ceSlope : List ℚ := (List.range 35).map (fun (i : ℕ) => (i : ℚ) / 10 ^ 12)

theorem ceSlope_pairwise : List.Pairwise (· < ·) ceSlope := by
  unfold ceSlope
  rw [List.pairwise_map]
  apply (List.pairwise_lt_range 35).imp
  intro a b h
  have hc : (a:ℚ) < (b:ℚ) := by exact_mod_cast h
  have hp : (0:ℚ) < 10 ^ 12 := by positivity
  exact (div_lt_div_right hp).2 hc

theorem ceSlope_length : ceSlope.length = 35 := by
  simp [ceSlope]

theorem ceSlope_bounds : ∀ x ∈ ceSlope, 0 ≤ x ∧ x ≤ 34 / 10 ^ 12 := by
  intro x hx
  rcases List.mem_map.1 hx with ⟨i, hi, rfl⟩
  have hi34 : i ≤ 34 := by
    have := List.mem_range.1 hi
    omega
  have hc : (i:ℚ) ≤ 34 := by exact_mod_cast hi34
  have hp : (0:ℚ) < 10 ^ 12 := by positivity
  constructor
  · positivity
  · exact (div_le_div_right hp).2 hc

/-- Counterexample to C6 as stated: `ceSlope` is strictly increasing and
long enough for MACD, yet the returned MACD line is exactly 0, not
strictly positive — `round(x, 4)` collapses the tiny positive line. -/
theorem claim_C6_counterexample :
    List.Pairwise (· < ·) ceSlope ∧ 26 + 9 ≤ ceSlope.length ∧
    (calculate_macd ceSlope 12 26 9).1 = some 0 ∧ ¬ (0:ℚ) < 0 := by
  have hpw := ceSlope_pairwise
  have hlen := ceSlope_length
  refine ⟨hpw, by omega, ?_, by norm_num⟩
  have hne : ceSlope ≠ [] := List.ne_nil_of_length_pos (by omega)
  have hr12 : 0 ≤ rSpan 12 := rSpan_nonneg (by norm_num)
  have hr26 : 0 ≤ rSpan 26 := rSpan_nonneg (by norm_num)
  have hpre : 0 < macdLinePre ceSlope 12 26 := by
    unfold macdLinePre
    have := ewma_lt_of_ratio_lt (rSpan 12) (rSpan 26) ceSlope hr12
      (rSpan_lt_rSpan (by norm_num)) (by omega) hpw
    linarith
  have hup : ewma (rSpan 12) ceSlope ≤ 34 / 10 ^ 12 :=
    ewma_le_of_all_le _ _ _ hr12 hne (fun x hx => (ceSlope_bounds x hx).2)
  have hlo : 0 ≤ ewma (rSpan 26) ceSlope :=
    ewma_nonneg_of_all_nonneg _ _ hr26 (fun x hx => (ceSlope_bounds x hx).1)
  have hsmall : macdLinePre ceSlope 12 26 * 10 ^ 4 < 1 / 2 := by
    unfold macdLinePre
    nlinarith
  have hround : roundTo 4 (macdLinePre ceSlope 12 26) = 0 :=
    roundTo_eq_zero_of_small 4 _ hpre.le hsmall
  unfold calculate_macd
  rw [if_neg (by omega)]
  dsimp only
  rw [hround]

/-! Message delivery layer (`src/notifiers/telegram.py`).  Python strings are
`List Char`; `MAX_MESSAGE_LENGTH = 4096` and `SECTION_SEPARATOR = "\n\n"`. -/

/-- `MAX_MESSAGE_LENGTH` from `src/notifiers/telegram.py`. -/
def MAX_MESSAGE_LENGTH : ℕ := 4096

/-- `text.split("\n\n")`: split on every non-overlapping occurrence of the
two-newline separator, scanning left to right; `n` occurrences give `n + 1`
parts, empty parts included, exactly as Python `str.split` with a
non-empty separator. -/
def splitSections : List Char → List (List Char)
  | [] => [[]]
  | [c] => [[c]]
  | c1 :: c2 :: t =>
      if c1 = '\n' ∧ c2 = '\n' then [] :: splitSections t
      else
        match splitSections (c2 :: t) with
        | [] => [[c1]]
        | s :: rest => (c1 :: s) :: rest

/-- `SECTION_SEPARATOR.join(...)`, the inverse rejoin used to state the
reconstruction property. -/
def joinSections : List (List Char) → List Char
  | [] => []
  | [s] => s
  | s :: rest => s ++ '\n' :: '\n' :: joinSections rest

/-- Whether the text contains the section separator at all. -/
def hasSep : List Char → Bool
  | [] => false
  | [_] => false
  | c1 :: c2 :: t => (c1 == '\n' && c2 == '\n') || hasSep (c2 :: t)

/-- The hard-split loop of `_split_message` for one oversized section:
`for i in range(0, len(section), MAX_MESSAGE_LENGTH)`.  (The source only
runs it when `len(section) > MAX_MESSAGE_LENGTH`, so the two agree on every
reachable input.) -/
def forceSplit (s : List Char) : List (List Char) :=
  if h : s.length ≤ MAX_MESSAGE_LENGTH then [s]
  else s.take MAX_MESSAGE_LENGTH :: forceSplit (s.drop MAX_MESSAGE_LENGTH)
termination_by s.length
decreasing_by
  simp only [List.length_drop]
  unfold MAX_MESSAGE_LENGTH at *
  omega

/-- The accumulation loop of `_split_message`: greedily extend `current`
with the next section (joined by the separator) while the result stays
within the limit; otherwise flush `current`, hard-splitting a section that
alone exceeds the limit. -/
def splitRun : List (List Char) → List Char → List (List Char)
  | [], current => if current = [] then [] else [current]
  | sec :: rest, current =>
      let candidate := if current = [] then sec
        else current ++ '\n' :: '\n' :: sec
      if candidate.length ≤ MAX_MESSAGE_LENGTH then splitRun rest candidate
      else
        (if current = [] then [] else [current]) ++
          (if MAX_MESSAGE_LENGTH < sec.length then
            forceSplit sec ++ splitRun rest []
          else splitRun rest sec)

/-- `TelegramNotifier._split_message`. -/
def split_message (text : List Char) : List (List Char) :=
  splitRun (splitSections text) []

/-- The chunk list `send_message` actually delivers: one chunk when the
text fits, the `_split_message` parts otherwise. -/
def deliveryChunks (text : List Char) : List (List Char) :=
  if text.length ≤ MAX_MESSAGE_LENGTH then [text] else split_message text

theorem splitSections_ne_nil : ∀ s : List Char, splitSections s ≠ []
  | [] => by simp [splitSections]
  | [c] => by simp [splitSections]
  | c1 :: c2 :: t => by
      rw [splitSections]
      split_ifs
      · simp
      · rcases h : splitSections (c2 :: t) with _ | ⟨x, xs⟩ <;> simp

theorem joinSections_cons (x : List Char) (l : List (List Char)) :
    joinSections (x :: l) =
      x ++ (if l = [] then [] else '\n' :: '\n' :: joinSections l) := by
  cases l with
  | nil => simp [joinSections]
  | cons y ys => simp [joinSections]

theorem joinSections_cons_head (c : Char) (s : List Char)
    (l : List (List Char)) :
    joinSections ((c :: s) :: l) = c :: joinSections (s :: l) := by
  cases l with
  | nil => simp [joinSections]
  | cons y ys => simp [joinSections]

theorem join_splitSections : ∀ s : List Char,
    joinSections (splitSections s) = s
  | [] => rfl
  | [c] => rfl
  | c1 :: c2 :: t => by
      rw [splitSections]
      split_ifs with h
      · obtain ⟨h1, h2⟩ := h
        subst h1
        subst h2
        have hne := splitSections_ne_nil t
        rw [joinSections_cons, if_neg hne, join_splitSections t]
        simp
      · rcases hx : splitSections (c2 :: t) with _ | ⟨x, xs⟩
        · exact absurd hx (splitSections_ne_nil _)
        · have hj : joinSections (x :: xs) = c2 :: t := by
            rw [← hx, join_splitSections (c2 :: t)]
          rw [joinSections_cons_head, hj]

theorem splitSections_no_sep : ∀ s : List Char,
    hasSep s = false → splitSections s = [s]
  | [] => by intro _; rfl
  | [c] => by intro _; rfl
  | c1 :: c2 :: t => by
      intro h
      rw [hasSep] at h
      rw [Bool.or_eq_false_iff] at h
      obtain ⟨h1, h2⟩ := h
      rw [splitSections]
      rw [if_neg]
      · rw [splitSections_no_sep (c2 :: t) h2]
      · intro hc
        obtain ⟨hc1, hc2⟩ := hc
        subst hc1
        subst hc2
        simp at h1

theorem splitRun_ne_nil : ∀ (secs : List (List Char)) (cur : List Char),
    cur ≠ [] → splitRun secs cur ≠ []
  | [], cur => by
      intro h
      simp [splitRun, h]
  | sec :: rest, cur => by
      intro h
      rw [splitRun]
      simp only [if_neg h]
      split_ifs with h1 h2
      · exact splitRun_ne_nil rest _ (List.append_ne_nil_of_left_ne_nil h _)
      · simp
      · simp

theorem splitRun_spec : ∀ (secs : List (List Char)) (cur : List Char),
    cur ≠ [] → cur.length ≤ MAX_MESSAGE_LENGTH →
    (∀ t ∈ secs, t ≠ [] ∧ t.length ≤ MAX_MESSAGE_LENGTH) →
    joinSections (splitRun secs cur) = joinSections (cur :: secs) ∧
    ∀ c ∈ splitRun secs cur, c.length ≤ MAX_MESSAGE_LENGTH
  | [], cur => by
      intro hne hle _
      rw [splitRun, if_neg hne]
      constructor
      · rfl
      · intro c hc
        rw [List.mem_singleton] at hc
        subst hc
        exact hle
  | sec :: rest, cur => by
      intro hne hle hsecs
      obtain ⟨hsne, hsle⟩ := hsecs sec (by simp)
      have hrest : ∀ t ∈ rest, t ≠ [] ∧ t.length ≤ MAX_MESSAGE_LENGTH :=
        fun t ht => hsecs t (by simp [ht])
      rw [splitRun]
      simp only [if_neg hne]
      by_cases h1 : (cur ++ '\n' :: '\n' :: sec).length ≤ MAX_MESSAGE_LENGTH
      · -- the candidate fits: keep accumulating
        rw [if_pos h1]
        have hcne : cur ++ '\n' :: '\n' :: sec ≠ [] :=
          List.append_ne_nil_of_left_ne_nil hne _
        obtain ⟨ihj, ihb⟩ := splitRun_spec rest (cur ++ '\n' :: '\n' :: sec)
          hcne h1 hrest
        refine ⟨?_, ihb⟩
        rw [ihj]
        cases rest with
        | nil => simp [joinSections]
        | cons r rs => simp [joinSections]
      · -- overflow: flush `cur`, start again from `sec` (which fits)
        rw [if_neg h1, if_neg (by omega : ¬ MAX_MESSAGE_LENGTH < sec.length)]
        obtain ⟨ihj, ihb⟩ := splitRun_spec rest sec hsne hsle hrest
        have hrne := splitRun_ne_nil rest sec hsne
        constructor
        · rw [List.singleton_append]
          rw [joinSections_cons cur (splitRun rest sec), if_neg hrne, ihj]
          rw [joinSections_cons cur (sec :: rest), if_neg (by simp)]
        · intro c hc
          rw [List.singleton_append, List.mem_cons] at hc
          rcases hc with rfl | hc
          · exact hle
          · exact ihb c hc

/-- Claim C8, amended: a blob that fits is delivered as one chunk equal to
the input; a longer blob all of whose sections are nonempty and fit yields
at least two chunks, each within the limit, which the separator rejoins to
the original text.  (The nonemptiness condition is forced: an empty section
next to a flush point is dropped by the accumulator, losing a separator —
see the counterexample.) -/
theorem claim_C8 (text : List Char) :
    (text.length ≤ MAX_MESSAGE_LENGTH → deliveryChunks text = [text]) ∧
    (MAX_MESSAGE_LENGTH < text.length →
      (∀ t ∈ splitSections text, t ≠ [] ∧ t.length ≤ MAX_MESSAGE_LENGTH) →
      2 ≤ (split_message text).length ∧
      (∀ c ∈ split_message text, c.length ≤ MAX_MESSAGE_LENGTH) ∧
      joinSections (split_message text) = text) := by
  constructor
  · intro h
    unfold deliveryChunks
    rw [if_pos h]
  · intro hlen hsec
    have hrec : joinSections (split_message text) = text ∧
        ∀ c ∈ split_message text, c.length ≤ MAX_MESSAGE_LENGTH := by
      unfold split_message
      rcases hx : splitSections text with _ | ⟨s0, rest⟩
      · exact absurd hx (splitSections_ne_nil _)
      · obtain ⟨h0ne, h0le⟩ := by
          rw [hx] at hsec
          exact hsec s0 (by simp)
        have hrest : ∀ t ∈ rest, t ≠ [] ∧ t.length ≤ MAX_MESSAGE_LENGTH := by
          intro t ht
          rw [hx] at hsec
          exact hsec t (by simp [ht])
        rw [splitRun]
        rw [if_pos rfl]
        rw [if_pos h0le]
        obtain ⟨hj, hb⟩ := splitRun_spec rest s0 h0ne h0le hrest
        refine ⟨?_, hb⟩
        rw [hj, ← hx, join_splitSections]
    obtain ⟨hjoin, hbound⟩ := hrec
    refine ⟨?_, hbound, hjoin⟩
    rcases hsm : split_message text with _ | ⟨c, cs⟩
    · rw [hsm] at hjoin
      have : text = [] := by
        rw [← hjoin]
        rfl
      rw [this] at hlen
      simp at hlen
    · cases cs with
      | nil =>
          rw [hsm] at hjoin hbound
          have hc : c = text := by
            rw [← hjoin]
            rfl
          have := hbound c (by simp)
          rw [hc] at this
          omega
      | cons d ds => simp

theorem splitSections_sep_cons (t : List Char) :
    splitSections ('\n' :: '\n' :: t) = [] :: splitSections t := by
  rw [splitSections]
  rw [if_pos ⟨rfl, rfl⟩]

theorem splitSections_cons_of_head (c : Char) (hc : c ≠ '\n') :
    ∀ (t : List Char) (s : List Char) (rest : List (List Char)),
      splitSections t = s :: rest →
      splitSections (c :: t) = (c :: s) :: rest := by
  intro t s rest h
  cases t with
  | nil =>
      have hs : ([] : List Char) :: ([] : List (List Char)) = s :: rest := h
      injection hs with h1 h2
      subst h1
      subst h2
      rfl
  | cons c2 t2 =>
      rw [splitSections]
      rw [if_neg (fun hh => hc hh.1)]
      rw [h]

theorem hasSep_replicate (c : Char) (hc : c ≠ '\n') :
    ∀ n : ℕ, hasSep (List.replicate n c) = false
  | 0 => rfl
  | 1 => rfl
  | n + 2 => by
      show hasSep (c :: c :: List.replicate n c) = false
      have ht : hasSep (List.replicate (n + 1) c) = false :=
        hasSep_replicate c hc (n + 1)
      rw [List.replicate_succ] at ht
      rw [hasSep, ht]
      simp [hc]

theorem splitSections_replicate (c : Char) (hc : c ≠ '\n') (n : ℕ) :
    splitSections (List.replicate n c) = [List.replicate n c] :=
  splitSections_no_sep _ (hasSep_replicate c hc n)

theorem splitSections_replicate_append (c : Char) (hc : c ≠ '\n')
    (rest : List Char) :
    ∀ n : ℕ, splitSections (List.replicate n c ++ '\n' :: '\n' :: rest) =
      List.replicate n c :: splitSections rest := by
  intro n
  induction n with
  | zero =>
      simpa using splitSections_sep_cons rest
  | succ m ih =>
      rw [List.replicate_succ, List.cons_append]
      exact splitSections_cons_of_head c hc _ _ _ ih

theorem replicate_pos_ne_nil (c : Char) (n : ℕ) (h : 0 < n) :
    List.replicate n c ≠ [] := by
  intro hc
  have hl := congrArg List.length hc
  rw [List.length_replicate] at hl
  simp at hl
  omega

/-- The input refuting the reconstruction clause of C8: a blob that starts
with the section separator, whose first section is therefore empty.  The
splitter silently drops the empty section, losing the leading separator. -/
def ce8 : List Char := '\n' :: '\n' :: List.replicate 4095 'a'

theorem ce8_length : ce8.length = 4097 := by
  unfold ce8
  rw [List.length_cons, List.length_cons, List.length_replicate]

theorem ce8_sections : splitSections ce8 = [[], List.replicate 4095 'a'] := by
  unfold ce8
  rw [splitSections_sep_cons, splitSections_replicate 'a' (by decide)]

theorem ce8_chunks : split_message ce8 = [List.replicate 4095 'a'] := by
  have hrep : (List.replicate 4095 'a').length = 4095 := List.length_replicate 4095 'a'
  unfold split_message
  rw [ce8_sections]
  rw [splitRun]
  rw [if_pos (rfl : ([] : List Char) = [])]
  rw [if_pos (by decide : ([] : List Char).length ≤ MAX_MESSAGE_LENGTH)]
  rw [splitRun]
  rw [if_pos (rfl : ([] : List Char) = [])]
  rw [if_pos (by rw [hrep]; decide)]
  rw [splitRun]
  rw [if_neg (replicate_pos_ne_nil 'a' 4095 (by norm_num))]

/-- Counterexample to C8 as stated: `ce8` is longer than 4096 and each of
its sections fits the limit, yet `_split_message` yields a single chunk and
rejoining does not reconstruct the input (the leading separator is lost). -/
theorem claim_C8_counterexample :
    4096 < ce8.length ∧
    (∀ t ∈ splitSections ce8, t.length ≤ 4096) ∧
    ¬ 2 ≤ (split_message ce8).length ∧
    joinSections (split_message ce8) ≠ ce8 := by
  refine ⟨by rw [ce8_length]; norm_num, ?_, ?_, ?_⟩
  · rw [ce8_sections]
    intro t ht
    rcases List.mem_cons.1 ht with rfl | ht
    · norm_num
    · rcases List.mem_cons.1 ht with rfl | ht
      · rw [List.length_replicate]
        norm_num
      · simp at ht
  · rw [ce8_chunks]
    norm_num
  · rw [ce8_chunks]
    intro h
    have hlen := congrArg List.length h
    rw [ce8_length] at hlen
    have : (joinSections [List.replicate 4095 'a']).length = 4095 := by
      rw [joinSections, List.length_replicate]
    omega

/-- A long two-section blob whose sections are nonempty and fit. -/
def w8 : List Char :=
  List.replicate 3000 'a' ++ '\n' :: '\n' :: List.replicate 3000 'b'

theorem w8_length : w8.length = 6002 := by
  unfold w8
  rw [List.length_append, List.length_replicate, List.length_cons,
    List.length_cons, List.length_replicate]

theorem w8_sections :
    splitSections w8 = [List.replicate 3000 'a', List.replicate 3000 'b'] := by
  unfold w8
  rw [splitSections_replicate_append 'a' (by decide),
    splitSections_replicate 'b' (by decide)]

/-- Witness for C8: a two-character text is delivered whole, and `w8` is
split into chunks that fit and rejoin to `w8`. -/
theorem claim_C8_witness :
    deliveryChunks ['h', 'i'] = [['h', 'i']] ∧
    2 ≤ (split_message w8).length ∧
    (∀ c ∈ split_message w8, c.length ≤ MAX_MESSAGE_LENGTH) ∧
    joinSections (split_message w8) = w8 := by
  have h1 := (claim_C8 ['h', 'i']).1 (by decide)
  have h2 := (claim_C8 w8).2 (by rw [w8_length]; decide) ?_
  · exact ⟨h1, h2.1, h2.2.1, h2.2.2⟩
  · rw [w8_sections]
    intro t ht
    rcases List.mem_cons.1 ht with rfl | ht
    · refine ⟨replicate_pos_ne_nil 'a' 3000 (by norm_num), ?_⟩
      rw [List.length_replicate]
      decide
    · rcases List.mem_cons.1 ht with rfl | ht
      · refine ⟨replicate_pos_ne_nil 'b' 3000 (by norm_num), ?_⟩
        rw [List.length_replicate]
        decide
      · simp at ht

theorem forceSplit_flatten_aux : ∀ (n : ℕ) (s : List Char), s.length ≤ n →
    (forceSplit s).flatten = s := by
  intro n
  induction n with
  | zero =>
      intro s h
      have hs : s = [] := List.eq_nil_of_length_eq_zero (by omega)
      subst hs
      rw [forceSplit]
      norm_num
  | succ m ih =>
      intro s hle
      rw [forceSplit]
      split_ifs with h
      · simp
      · have hm : 4096 < s.length := by
          unfold MAX_MESSAGE_LENGTH at h
          omega
        have hdrop : (s.drop MAX_MESSAGE_LENGTH).length ≤ m := by
          rw [List.length_drop]
          unfold MAX_MESSAGE_LENGTH
          omega
        rw [List.flatten_cons]
        rw [ih _ hdrop]
        exact List.take_append_drop _ _

theorem forceSplit_flatten (s : List Char) : (forceSplit s).flatten = s :=
  forceSplit_flatten_aux s.length s le_rfl

theorem forceSplit_bound_aux : ∀ (n : ℕ) (s : List Char), s.length ≤ n →
    ∀ c ∈ forceSplit s, c.length ≤ MAX_MESSAGE_LENGTH := by
  intro n
  induction n with
  | zero =>
      intro s h c hc
      have hs : s = [] := List.eq_nil_of_length_eq_zero (by omega)
      subst hs
      rw [forceSplit] at hc
      rw [dif_pos (by decide)] at hc
      rw [List.mem_singleton] at hc
      subst hc
      decide
  | succ m ih =>
      intro s hle c hc
      rw [forceSplit] at hc
      split_ifs at hc with h
      · rw [List.mem_singleton] at hc
        subst hc
        omega
      · have hdrop : (s.drop MAX_MESSAGE_LENGTH).length ≤ m := by
          rw [List.length_drop]
          unfold MAX_MESSAGE_LENGTH at h ⊢
          omega
        rcases List.mem_cons.1 hc with rfl | hc
        · rw [List.length_take]
          omega
        · exact ih _ hdrop c hc

theorem forceSplit_count_aux : ∀ (n : ℕ) (s : List Char), s.length ≤ n →
    1 ≤ s.length →
    (forceSplit s).length = (s.length + 4095) / 4096 := by
  intro n
  induction n with
  | zero =>
      intro s h h1
      omega
  | succ m ih =>
      intro s hle h1
      rw [forceSplit]
      split_ifs with h
      · unfold MAX_MESSAGE_LENGTH at h
        rw [List.length_singleton]
        omega
      · have hm : 4096 < s.length := by
          unfold MAX_MESSAGE_LENGTH at h
          omega
        have hdrop : (s.drop MAX_MESSAGE_LENGTH).length ≤ m := by
          rw [List.length_drop]
          unfold MAX_MESSAGE_LENGTH
          omega
        have hd1 : 1 ≤ (s.drop MAX_MESSAGE_LENGTH).length := by
          rw [List.length_drop]
          unfold MAX_MESSAGE_LENGTH
          omega
        rw [List.length_cons]
        rw [ih _ hdrop hd1]
        rw [List.length_drop]
        unfold MAX_MESSAGE_LENGTH
        omega

/-- Claim C10: a text longer than the limit with no section separator is
hard-split into exactly `⌈len/4096⌉ = (len + 4095) / 4096` chunks, each
within the limit, whose plain concatenation is the original text. -/
theorem claim_C10 (s : List Char) (hlen : 4096 < s.length)
    (hns : hasSep s = false) :
    (split_message s).length = (s.length + 4095) / 4096 ∧
    (∀ c ∈ split_message s, c.length ≤ 4096) ∧
    (split_message s).flatten = s := by
  have hsm : split_message s = forceSplit s := by
    unfold split_message
    rw [splitSections_no_sep s hns]
    rw [splitRun]
    rw [if_pos (rfl : ([] : List Char) = [])]
    rw [if_neg (by unfold MAX_MESSAGE_LENGTH; omega)]
    rw [if_pos (rfl : ([] : List Char) = [])]
    rw [if_pos (by unfold MAX_MESSAGE_LENGTH; omega)]
    rw [splitRun]
    rw [if_pos (rfl : ([] : List Char) = [])]
    simp
  rw [hsm]
  refine ⟨forceSplit_count_aux s.length s le_rfl (by omega), ?_,
    forceSplit_flatten s⟩
  intro c hc
  have := forceSplit_bound_aux s.length s le_rfl c hc
  unfold MAX_MESSAGE_LENGTH at this
  exact this

/-- Witness for C10 on 4100 identical characters: two chunks, each within
the limit, concatenating back to the input. -/
theorem claim_C10_witness :
    (split_message (List.replicate 4100 'a')).length =
      ((List.replicate 4100 'a').length + 4095) / 4096 ∧
    (∀ c ∈ split_message (List.replicate 4100 'a'), c.length ≤ 4096) ∧
    (split_message (List.replicate 4100 'a')).flatten =
      List.replicate 4100 'a' :=
  claim_C10 (List.replicate 4100 'a')
    (by rw [List.length_replicate]; norm_num)
    (hasSep_replicate 'a' (by decide) 4100)

/-- The tag stripping of `_send_plain_text`:
`re.sub(r"<[^>]+>", "", text)`.  At a `<` the regex greedily takes one or
more non-`>` characters followed by `>`; matches are removed left to right,
non-overlapping; everything else is kept. -/
def stripTags : List Char → List Char
  | [] => []
  | c :: t =>
      if c = '<' then
        if h : 1 ≤ (t.takeWhile (fun x => x ≠ '>')).length ∧
            (t.takeWhile (fun x => x ≠ '>')).length < t.length then
          stripTags (t.drop ((t.takeWhile (fun x => x ≠ '>')).length + 1))
        else c :: stripTags t
      else c :: stripTags t
termination_by s => s.length
decreasing_by
  · simp only [List.length_drop, List.length_cons]
    omega
  · simp only [List.length_cons]
    omega
  · simp only [List.length_cons]
    omega

/-- One transport attempt: rich HTML or the plain-text fallback, with its
payload; indices order the chunks. -/
inductive Attempt where
  | rich : ℕ → List Char → Attempt
  | plain : ℕ → List Char → Attempt
deriving DecidableEq

/-- The chunk index of an attempt. -/
def attemptIndex : Attempt → ℕ
  | Attempt.rich i _ => i
  | Attempt.plain i _ => i

/-- `_send_single`: try rich HTML first; on a transport error (a `false`
oracle outcome) strip the markup and retry once as plain text.  Returns the
attempts made and whether the chunk was delivered. -/
def send_single (i : ℕ) (chunk : List Char) (richOk plainOk : Bool) :
    List Attempt × Bool :=
  if richOk then ([Attempt.rich i chunk], true)
  else ([Attempt.rich i chunk, Attempt.plain i (stripTags chunk)], plainOk)

/-- The delivery loop of `send_message` over the chunk list paired with its
transport outcomes: every chunk is attempted in order regardless of earlier
failures, and overall success is the conjunction of per-chunk results. -/
def send_message_run : ℕ → List (List Char × Bool × Bool) → List Attempt × Bool
  | _, [] => ([], true)
  | i, (chunk, richOk, plainOk) :: rest =>
      let one := send_single i chunk richOk plainOk
      let more := send_message_run (i + 1) rest
      (one.1 ++ more.1, one.2 && more.2)

theorem smr_result : ∀ (items : List (List Char × Bool × Bool)) (i : ℕ),
    (send_message_run i items).2 = true ↔
      ∀ x ∈ items, x.2.1 = true ∨ x.2.2 = true := by
  intro items
  induction items with
  | nil =>
      intro i
      simp [send_message_run]
  | cons x rest ih =>
      intro i
      obtain ⟨chunk, richOk, plainOk⟩ := x
      cases richOk
      · simp [send_message_run, send_single, Bool.and_eq_true, ih (i + 1)]
      · simp [send_message_run, send_single, Bool.and_eq_true, ih (i + 1)]

theorem smr_index_ge : ∀ (items : List (List Char × Bool × Bool)) (i : ℕ)
    (a : Attempt), a ∈ (send_message_run i items).1 → i ≤ attemptIndex a := by
  intro items
  induction items with
  | nil =>
      intro i a ha
      simp [send_message_run] at ha
  | cons x rest ih =>
      intro i a ha
      obtain ⟨chunk, richOk, plainOk⟩ := x
      simp only [send_message_run, List.mem_append] at ha
      rcases ha with ha | ha
      · cases richOk
        · simp [send_single] at ha
          rcases ha with rfl | rfl <;> simp [attemptIndex]
        · simp [send_single] at ha
          subst ha
          simp [attemptIndex]
      · have := ih (i + 1) a ha
        omega

theorem smr_mem : ∀ (items : List (List Char × Bool × Bool)) (k j : ℕ)
    (h : j < items.length),
    (Attempt.rich (k + j) (items.get ⟨j, h⟩).1 ∈ (send_message_run k items).1) ∧
    (Attempt.plain (k + j) (stripTags (items.get ⟨j, h⟩).1) ∈
        (send_message_run k items).1 ↔ (items.get ⟨j, h⟩).2.1 = false) := by
  intro items
  induction items with
  | nil =>
      intro k j h
      simp at h
  | cons x rest ih =>
      intro k j h
      obtain ⟨chunk, richOk, plainOk⟩ := x
      cases j with
      | zero =>
          have hget : ((chunk, richOk, plainOk) :: rest).get ⟨0, h⟩ =
              (chunk, richOk, plainOk) := rfl
          rw [hget]
          constructor
          · simp only [send_message_run, List.mem_append]
            left
            cases richOk <;> simp [send_single]
          · constructor
            · intro hmem
              simp only [send_message_run, List.mem_append] at hmem
              rcases hmem with hmem | hmem
              · cases richOk
                · rfl
                · simp [send_single] at hmem
              · have := smr_index_ge rest (k + 1) _ hmem
                simp [attemptIndex] at this
            · intro hrich
              simp only [send_message_run, List.mem_append]
              left
              cases richOk
              · simp [send_single]
              · simp at hrich
      | succ j2 =>
          have hj : j2 < rest.length := by
            simpa using h
          have hrec := ih (k + 1) j2 hj
          have hget : ((chunk, richOk, plainOk) :: rest).get ⟨j2 + 1, h⟩ =
              rest.get ⟨j2, hj⟩ := rfl
          rw [hget]
          constructor
          · simp only [send_message_run, List.mem_append]
            right
            rw [show k + (j2 + 1) = (k + 1) + j2 by omega]
            exact hrec.1
          · constructor
            · intro hmem
              simp only [send_message_run, List.mem_append] at hmem
              rcases hmem with hmem | hmem
              · cases richOk <;> simp [send_single] at hmem <;> omega
              · rw [show k + (j2 + 1) = (k + 1) + j2 by omega] at hmem
                exact hrec.2.1 hmem
            · intro hrich
              simp only [send_message_run, List.mem_append]
              right
              rw [show k + (j2 + 1) = (k + 1) + j2 by omega]
              exact hrec.2.2 hrich

theorem smr_sorted : ∀ (items : List (List Char × Bool × Bool)) (i : ℕ),
    List.Sorted (· ≤ ·) (((send_message_run i items).1).map attemptIndex) := by
  intro items
  induction items with
  | nil =>
      intro i
      simp [send_message_run]
  | cons x rest ih =>
      intro i
      obtain ⟨chunk, richOk, plainOk⟩ := x
      simp only [send_message_run, List.map_append]
      rw [List.Sorted, List.pairwise_append]
      refine ⟨?_, ih (i + 1), ?_⟩
      · cases richOk <;> simp [send_single, attemptIndex]
      · intro a ha b hb
        have hai : a = i := by
          rcases List.mem_map.1 ha with ⟨a1, ha1, rfl⟩
          cases richOk
          · simp [send_single] at ha1
            rcases ha1 with rfl | rfl <;> simp [attemptIndex]
          · simp [send_single] at ha1
            subst ha1
            simp [attemptIndex]
        have hbge : i + 1 ≤ b := by
          rcases List.mem_map.1 hb with ⟨b1, hb1, rfl⟩
          exact smr_index_ge rest (i + 1) b1 hb1
        omega

/-- Claim C9: the delivery loop attempts every chunk in order (a rich
attempt for each index is always present and indices are non-decreasing
along the trace), a plain-text retry with tags stripped happens exactly for
the chunks whose rich attempt failed, and the overall result is the
conjunction of per-chunk deliveries. -/
theorem claim_C9 (items : List (List Char × Bool × Bool)) :
    ((send_message_run 0 items).2 = true ↔
      ∀ x ∈ items, x.2.1 = true ∨ x.2.2 = true) ∧
    (∀ (j : ℕ) (h : j < items.length),
      Attempt.rich j (items.get ⟨j, h⟩).1 ∈ (send_message_run 0 items).1) ∧
    (∀ (j : ℕ) (h : j < items.length),
      (Attempt.plain j (stripTags (items.get ⟨j, h⟩).1) ∈
          (send_message_run 0 items).1 ↔ (items.get ⟨j, h⟩).2.1 = false)) ∧
    List.Sorted (· ≤ ·) (((send_message_run 0 items).1).map attemptIndex) := by
  refine ⟨smr_result items 0, ?_, ?_, smr_sorted items 0⟩
  · intro j h
    have := (smr_mem items 0 j h).1
    simpa using this
  · intro j h
    have := (smr_mem items 0 j h).2
    simpa using this

/-- Witness for C9: with two chunks whose second rich attempt fails, the
second chunk is still attempted. -/
theorem claim_C9_witness :
    Attempt.rich 1 ['<', 'b', '>'] ∈
      (send_message_run 0 [(['a'], true, true), (['<', 'b', '>'], false, true)]).1 := by
  have h := (claim_C9 [(['a'], true, true), (['<', 'b', '>'], false, true)]).2.1
    1 (by norm_num)
  exact h
